import Mathlib

/-!
Verification of `memdb_batch.go` (package `db`)

A shallow embedding of the in-memory write batch `memDBBatch` and proofs of
its contract.

Modelling conventions.

* A Go `[]byte` is `Bytes`: `Bytes.nil` is the nil slice, `Bytes.mk l` a
  non-nil slice holding the bytes `l` (so `Bytes.mk []` is the empty, non-nil
  slice). The source tests `value == nil` and takes `len` of keys and values,
  so both notions are kept apart.
* The field `ops []operation` is `Option (List operation)`: `none` is the nil
  slice the source uses as the closed marker, `some []` is `[]operation{}`.
* Go `int` (the field `size`, the tag `opType`) is taken 64 bits wide, as on the
  amd64 and arm64 targets. A value is an `Int`; the Go operator `+` is `addInt`,
  which wraps around in two's complement (`wrapInt`), so the size accumulator
  wraps exactly where the compiled code does.
* Methods on `*memDBBatch` mutate the receiver and, through `b.db`, the store.
  Here the receiver and the store are passed in and the new ones returned
  together with the Go `error` (`none` is the nil error).
* `fmt.Printf` tracing and the mutex `db.mtx` are not part of the sequential
  model: each method is one atomic step.
-/

namespace db

/-- One byte. -/
abbrev Byte := Fin 256

/-- Go `[]byte`. -/
inductive Bytes where
  | nil : Bytes
  | mk (data : List Byte) : Bytes
  deriving DecidableEq, Repr

namespace Bytes

/-- Go `len(b)`: the nil slice has length 0. -/
def len : Bytes → Nat
  | Bytes.nil => 0
  | Bytes.mk l => l.length

/-- Byte content of a slice: the nil slice and the empty slice both hold no bytes. -/
def data : Bytes → List Byte
  | Bytes.nil => []
  | Bytes.mk l => l

end Bytes

/-- Modelled from the spec: the package errors `errKeyEmpty`, `errValueNil` and
`errBatchClosed` are declared outside `memdb_batch.go`; the spec names them
`EmptyKey`, `NilValue` and `BatchClosed`. `unknownOperation` stands for the value
built by `fmt.Errorf("unknown operation type %v (%v)", op.opType, op)` and keeps
the tag that was printed. -/
inductive Error where
  | errKeyEmpty : Error
  | errValueNil : Error
  | errBatchClosed : Error
  | unknownOperation (tag : Int) : Error
  deriving DecidableEq, Repr

export Error (errKeyEmpty errValueNil errBatchClosed)

/-- Modelled from the spec: the type `MemDB` is declared outside
`memdb_batch.go`. The spec describes the store as "a mutable key→value mapping";
keys are compared by their bytes, and an entry holds the value slice it was
given. `none` means the key has no entry. -/
abbrev MemDB := List Byte → Option Bytes

namespace MemDB

/-- Modelled from the spec: `(*MemDB).set` is defined outside `memdb_batch.go`;
the spec's `rawSet(key, value)` is "unconditionally write/overwrite a key". -/
def set (db : MemDB) (key value : Bytes) : MemDB :=
  fun k => if k = key.data then some value else db k

/-- Modelled from the spec: `(*MemDB).delete` is defined outside
`memdb_batch.go`; the spec's `rawDelete(key)` is "unconditionally remove a key if
present". -/
def delete (db : MemDB) (key : Bytes) : MemDB :=
  fun k => if k = key.data then none else db k

end MemDB

/-- The Go type `opType int`. -/
abbrev opType := Int

/-- The constant `opTypeSet opType = iota + 1`. -/
def opTypeSet : opType := 1

/-- The constant `opTypeDelete`, the next `iota` value. -/
def opTypeDelete : opType := 2

/-- The least value of a 64-bit Go `int`, `math.MinInt64`. -/
def minInt : Int := -9223372036854775808

/-- The greatest value of a 64-bit Go `int`, `math.MaxInt64`. -/
def maxInt : Int := 9223372036854775807

/-- Two's complement wrap-around of an integer into the range of a 64-bit Go
`int`: the value modulo `2^64` that lies between `minInt` and `maxInt`. -/
def wrapInt (x : Int) : Int :=
  (x + 9223372036854775808) % 18446744073709551616 - 9223372036854775808

/-- The Go operator `+` on `int`: the sum, wrapped around on overflow. -/
def addInt (x y : Int) : Int :=
  wrapInt (x + y)

/-- The Go struct `operation`. -/
structure operation where
  opType : opType
  key : Bytes
  value : Bytes
  deriving DecidableEq, Repr

/-- The Go struct `memDBBatch`, without the pointer `db`: the store is passed to
the methods that use it. -/
structure memDBBatch where
  ops : Option (List operation)
  size : Int
  deriving DecidableEq, Repr

/-- The Go function `newMemDBBatch`: `ops: []operation{}`, `size: 0`. -/
def newMemDBBatch : memDBBatch :=
  { ops := some [], size := 0 }

namespace memDBBatch

/-- The method `Set`. -/
def Set (b : memDBBatch) (key value : Bytes) : Option Error × memDBBatch :=
  if key.len = 0 then (some errKeyEmpty, b)
  else if value = Bytes.nil then (some errValueNil, b)
  else match b.ops with
    | none => (some errBatchClosed, b)
    | some ops =>
      (none, { ops := some (ops ++ [{ opType := opTypeSet, key := key, value := value }]),
               size := addInt b.size (addInt (key.len : Int) (value.len : Int)) })

/-- The method `Delete`. -/
def Delete (b : memDBBatch) (key : Bytes) : Option Error × memDBBatch :=
  if key.len = 0 then (some errKeyEmpty, b)
  else match b.ops with
    | none => (some errBatchClosed, b)
    | some ops =>
      (none, { ops := some (ops ++ [{ opType := opTypeDelete, key := key, value := Bytes.nil }]),
               size := addInt b.size (key.len : Int) })

/-- The method `Close`. -/
def Close (_b : memDBBatch) : Option Error × memDBBatch :=
  (none, { ops := none, size := 0 })

/-- The loop `for _, op := range b.ops { switch op.opType ... }` of `Write`: the
store after the loop, and the error of the `default` branch when the loop returns
early. -/
def replay : List operation → MemDB → Option Error × MemDB
  | [], db => (none, db)
  | op :: rest, db =>
    if op.opType = opTypeSet then replay rest (db.set op.key op.value)
    else if op.opType = opTypeDelete then replay rest (db.delete op.key)
    else (some (Error.unknownOperation op.opType), db)

/-- The method `Write`. -/
def Write (b : memDBBatch) (db : MemDB) : Option Error × memDBBatch × MemDB :=
  match b.ops with
  | none => (some errBatchClosed, b, db)
  | some ops =>
    match replay ops db with
    | (some e, db1) => (some e, b, db1)
    | (none, db1) => ((Close b).1, (Close b).2, db1)

/-- The method `WriteSync`. -/
def WriteSync (b : memDBBatch) (db : MemDB) : Option Error × memDBBatch × MemDB :=
  Write b db

/-- The method `GetByteSize`. -/
def GetByteSize (b : memDBBatch) : (Int × Option Error) × memDBBatch :=
  match b.ops with
  | none => ((0, some errBatchClosed), b)
  | some _ => ((b.size, none), b)

end memDBBatch

/-! ## The methods on the receiver with its `db` field

The definitions above leave the field `db` out and hand the store to `Write`.
For the claim on which methods touch the store, the struct is modelled a second
time with all three fields, and every method is given its receiver whole, so
that each body decides what happens to the store. -/

/-- The Go struct `memDBBatch` with its three fields. The pointer `db` is
modelled by the store it points to: a method reads and writes the store through
its receiver, as `b.db.set(op.key, op.value)` does. -/
structure receiver where
  db : MemDB
  ops : Option (List operation)
  size : Int

namespace receiver

/-- The fields `ops` and `size` of the receiver. -/
def batch (b : receiver) : memDBBatch :=
  { ops := b.ops, size := b.size }

/-- The method `Set`: assigns to `b.size` and `b.ops` only. -/
def Set (b : receiver) (key value : Bytes) : Option Error × receiver :=
  if key.len = 0 then (some errKeyEmpty, b)
  else if value = Bytes.nil then (some errValueNil, b)
  else match b.ops with
    | none => (some errBatchClosed, b)
    | some ops =>
      (none, { b with
        size := addInt b.size (addInt (key.len : Int) (value.len : Int)),
        ops := some (ops ++ [{ opType := opTypeSet, key := key, value := value }]) })

/-- The method `Delete`: assigns to `b.size` and `b.ops` only. -/
def Delete (b : receiver) (key : Bytes) : Option Error × receiver :=
  if key.len = 0 then (some errKeyEmpty, b)
  else match b.ops with
    | none => (some errBatchClosed, b)
    | some ops =>
      (none, { b with
        size := addInt b.size (key.len : Int),
        ops := some (ops ++ [{ opType := opTypeDelete, key := key, value := Bytes.nil }]) })

/-- The method `Close`: `b.ops = nil; b.size = 0`. -/
def Close (b : receiver) : Option Error × receiver :=
  (none, { b with ops := none, size := 0 })

/-- The method `Write`: the loop runs on the store `b.db`; the `default` branch
returns with the store as the loop left it, otherwise `Close` is called. -/
def Write (b : receiver) : Option Error × receiver :=
  match b.ops with
  | none => (some errBatchClosed, b)
  | some ops =>
    match memDBBatch.replay ops b.db with
    | (some e, db1) => (some e, { b with db := db1 })
    | (none, db1) => Close { b with db := db1 }

/-- The method `WriteSync`. -/
def WriteSync (b : receiver) : Option Error × receiver :=
  Write b

/-- The method `GetByteSize`. -/
def GetByteSize (b : receiver) : (Int × Option Error) × receiver :=
  match b.ops with
  | none => ((0, some errBatchClosed), b)
  | some _ => ((b.size, none), b)

end receiver

/-! ## Specification-side definitions -/

/-- The store with no entry. -/
def emptyDB : MemDB := fun _ => none

/-- One replay step as the specification words it: a Set step writes or
overwrites the key with the value, a Delete step removes the key if present. An
operation with any other tag is no step of the specification and leaves the
store alone. -/
def applyOp (s : MemDB) (op : operation) : MemDB :=
  if op.opType = opTypeSet then s.set op.key op.value
  else if op.opType = opTypeDelete then s.delete op.key
  else s

/-- A log is well formed when every operation is tagged Set or Delete. -/
def wellTagged (ops : List operation) : Prop :=
  ∀ op ∈ ops, op.opType = opTypeSet ∨ op.opType = opTypeDelete

instance (ops : List operation) : Decidable (wellTagged ops) := by
  unfold wellTagged; infer_instance

/-- A mutating call of a client: `Set(key, value)` or `Delete(key)`. -/
inductive Mutation where
  | set (key value : Bytes) : Mutation
  | delete (key : Bytes) : Mutation
  deriving DecidableEq, Repr

namespace Mutation

/-- The key argument of the call. -/
def key : Mutation → Bytes
  | Mutation.set k _ => k
  | Mutation.delete k => k

/-- Performing the call on a batch. -/
def call (m : Mutation) (b : memDBBatch) : Option Error × memDBBatch :=
  match m with
  | Mutation.set k v => b.Set k v
  | Mutation.delete k => b.Delete k

/-- The operation `Set{k, v}` or `Delete{k}` of the specification, as a log entry. -/
def toOperation : Mutation → operation
  | Mutation.set k v => { opType := opTypeSet, key := k, value := v }
  | Mutation.delete k => { opType := opTypeDelete, key := k, value := Bytes.nil }

end Mutation

/-- The batch built from `b` by the calls `ms`, each of which has to succeed:
`none` as soon as one call returns an error. -/
def build : List Mutation → memDBBatch → Option memDBBatch
  | [], b => some b
  | m :: ms, b =>
    match m.call b with
    | (none, b1) => build ms b1
    | (some _, _) => none

/-- The last call of `ms` whose key holds the bytes `k`, if there is one. -/
def lastOn (k : List Byte) (ms : List Mutation) : Option Mutation :=
  (ms.filter (fun m => m.key.data = k)).getLast?

/-- A call of the batch interface. -/
inductive Call where
  | set (key value : Bytes) : Call
  | delete (key : Bytes) : Call
  | write : Call
  | writeSync : Call
  | close : Call
  | getByteSize : Call
  deriving DecidableEq, Repr

/-- The batch and the store after one call; the returned error is dropped. -/
def Call.step (c : Call) (st : memDBBatch × MemDB) : memDBBatch × MemDB :=
  match c with
  | Call.set k v => ((st.1.Set k v).2, st.2)
  | Call.delete k => ((st.1.Delete k).2, st.2)
  | Call.write => (st.1.Write st.2).2
  | Call.writeSync => (st.1.WriteSync st.2).2
  | Call.close => (st.1.Close.2, st.2)
  | Call.getByteSize => (st.1.GetByteSize.2, st.2)

/-- The batch and the store after a sequence of calls, first call first. -/
def runCalls (cs : List Call) (st : memDBBatch × MemDB) : memDBBatch × MemDB :=
  cs.foldl (fun st c => c.step st) st

/-- The bytes one logged operation accounts for, as the specification words it:
`len(key) + len(value)` for a Set operation, `len(key)` for a Delete operation. -/
def opBytes (op : operation) : Int :=
  if op.opType = opTypeSet then (op.key.len : Int) + (op.value.len : Int)
  else if op.opType = opTypeDelete then (op.key.len : Int)
  else 0

/-- The sum of `opBytes` over a log. -/
def logBytes (ops : List operation) : Int :=
  (ops.map opBytes).sum

/-- The log of a batch as a list: a closed batch holds no operations. -/
def currentLog (b : memDBBatch) : List operation :=
  b.ops.getD []

/-- The receiver after one call; the returned error is dropped. -/
def Call.exec (c : Call) (b : receiver) : receiver :=
  match c with
  | Call.set k v => (b.Set k v).2
  | Call.delete k => (b.Delete k).2
  | Call.write => b.Write.2
  | Call.writeSync => b.WriteSync.2
  | Call.close => b.Close.2
  | Call.getByteSize => b.GetByteSize.2

/-- The receiver after a sequence of calls, first call first. -/
def execCalls (cs : List Call) (b : receiver) : receiver :=
  cs.foldl (fun b c => c.exec b) b

/-! ## Lemmas on `int` arithmetic -/

theorem wrapInt_of_range (x : Int) (hlo : minInt ≤ x) (hhi : x ≤ maxInt) : wrapInt x = x := by
  unfold minInt at hlo
  unfold maxInt at hhi
  unfold wrapInt
  omega

theorem wrapInt_add_wrapInt (a b : Int) : wrapInt (a + wrapInt b) = wrapInt (a + b) := by
  unfold wrapInt
  omega

theorem wrapInt_wrapInt_add_wrapInt (a b : Int) :
    wrapInt (wrapInt a + wrapInt b) = wrapInt (a + b) := by
  unfold wrapInt
  omega

/-! ## Lemmas on the replay loop -/

open memDBBatch

theorem replay_wellTagged (ops : List operation) (db : MemDB) (h : wellTagged ops) :
    replay ops db = (none, ops.foldl applyOp db) := by
  induction ops generalizing db with
  | nil => rfl
  | cons op rest ih =>
    have hrest : wellTagged rest := fun o ho => h o (List.mem_cons_of_mem _ ho)
    rcases h op (List.mem_cons_self _ _) with hs | hd
    · simp [replay, applyOp, hs, ih _ hrest]
    · have hds : opTypeDelete ≠ opTypeSet := by decide
      simp [replay, applyOp, hd, hds, ih _ hrest]

theorem wellTagged_map_toOperation (ms : List Mutation) :
    wellTagged (ms.map Mutation.toOperation) := by
  intro op hop
  obtain ⟨m, _, rfl⟩ := List.mem_map.mp hop
  cases m
  · exact Or.inl rfl
  · exact Or.inr rfl

theorem build_log (ms : List Mutation) (b b1 : memDBBatch) (l : List operation)
    (hl : b.ops = some l) (hb : build ms b = some b1) :
    b1.ops = some (l ++ ms.map Mutation.toOperation) := by
  induction ms generalizing b l with
  | nil =>
    simp only [build, Option.some.injEq] at hb
    subst hb
    simpa using hl
  | cons m ms ih =>
    cases m with
    | set k v =>
      by_cases hk : k.len = 0
      · simp [build, Mutation.call, memDBBatch.Set, hk] at hb
      · by_cases hv : v = Bytes.nil
        · simp [build, Mutation.call, memDBBatch.Set, hk, hv] at hb
        · simp only [build, Mutation.call, memDBBatch.Set, hk, hv, hl, if_false] at hb
          have := ih _ _ rfl hb
          simpa [Mutation.toOperation] using this
    | delete k =>
      by_cases hk : k.len = 0
      · simp [build, Mutation.call, memDBBatch.Delete, hk] at hb
      · simp only [build, Mutation.call, memDBBatch.Delete, hk, hl, if_false] at hb
        have := ih _ _ rfl hb
        simpa [Mutation.toOperation] using this

theorem foldl_applyOp_lookup (ms : List Mutation) (s : MemDB) (k : List Byte) :
    (ms.map Mutation.toOperation).foldl applyOp s k =
      match lastOn k ms with
      | none => s k
      | some (Mutation.set _ v) => some v
      | some (Mutation.delete _) => none := by
  induction ms using List.reverseRecOn with
  | nil => simp [lastOn]
  | append_singleton init m ih =>
    have hds : opTypeDelete ≠ opTypeSet := by decide
    by_cases hk : m.key.data = k
    · have hlast : lastOn k (init ++ [m]) = some m := by
        simp [lastOn, List.filter_append, List.filter_cons, hk]
      rw [hlast]
      cases m with
      | set k1 v =>
        simp only [Mutation.key] at hk
        simp [List.foldl_append, applyOp, Mutation.toOperation, MemDB.set, hk]
      | delete k1 =>
        simp only [Mutation.key] at hk
        simp [List.foldl_append, applyOp, Mutation.toOperation, MemDB.delete, hk, hds]
    · have hlast : lastOn k (init ++ [m]) = lastOn k init := by
        simp [lastOn, List.filter_append, List.filter_cons, hk]
      rw [hlast, ← ih]
      have hk1 : ¬ k = m.key.data := fun h => hk h.symm
      cases m with
      | set k1 v =>
        simp only [Mutation.key] at hk1
        simp [List.foldl_append, applyOp, Mutation.toOperation, MemDB.set, hk1]
      | delete k1 =>
        simp only [Mutation.key] at hk1
        simp [List.foldl_append, applyOp, Mutation.toOperation, MemDB.delete, hk1, hds]

/-! ## Lemmas on the life cycle -/

theorem write_batch_cases (b : memDBBatch) (s : MemDB) :
    ((b.Write s).1 ≠ none ∧ (b.Write s).2.1 = b) ∨
      ((b.Write s).1 = none ∧ b.ops ≠ none ∧ (b.Write s).2.1 = { ops := none, size := 0 }) := by
  obtain ⟨ops, size⟩ := b
  cases ops with
  | none => left; simp [Write]
  | some l =>
    rcases hr : replay l s with ⟨e, s1⟩
    cases e with
    | none => right; simp [Write, hr, Close]
    | some e => left; simp [Write, hr]

theorem write_ok_closed (b : memDBBatch) (s : MemDB) (h : (b.Write s).1 = none) :
    (b.Write s).2.1 = { ops := none, size := 0 } := by
  rcases write_batch_cases b s with h1 | h1
  · exact absurd h h1.1
  · exact h1.2.2

theorem step_wellTagged (c : Call) (st : memDBBatch × MemDB)
    (h : ∀ ops, st.1.ops = some ops → wellTagged ops) :
    ∀ ops, (c.step st).1.ops = some ops → wellTagged ops := by
  obtain ⟨⟨o, size⟩, s⟩ := st
  cases c with
  | set k v =>
    cases o with
    | none =>
      intro ops hops
      by_cases hk : k.len = 0 <;> by_cases hv : v = Bytes.nil <;>
        simp [Call.step, memDBBatch.Set, hk, hv] at hops
    | some l =>
      intro ops hops
      by_cases hk : k.len = 0
      · exact h ops (by simpa [Call.step, memDBBatch.Set, hk] using hops)
      · by_cases hv : v = Bytes.nil
        · exact h ops (by simpa [Call.step, memDBBatch.Set, hk, hv] using hops)
        · simp only [Call.step, memDBBatch.Set, hk, hv, if_false, Option.some.injEq] at hops
          subst hops
          intro op hop
          rcases List.mem_append.mp hop with hin | hin
          · exact h l rfl op hin
          · rw [List.mem_singleton.mp hin]; exact Or.inl rfl
  | delete k =>
    cases o with
    | none =>
      intro ops hops
      by_cases hk : k.len = 0 <;> simp [Call.step, memDBBatch.Delete, hk] at hops
    | some l =>
      intro ops hops
      by_cases hk : k.len = 0
      · exact h ops (by simpa [Call.step, memDBBatch.Delete, hk] using hops)
      · simp only [Call.step, memDBBatch.Delete, hk, if_false, Option.some.injEq] at hops
        subst hops
        intro op hop
        rcases List.mem_append.mp hop with hin | hin
        · exact h l rfl op hin
        · rw [List.mem_singleton.mp hin]; exact Or.inr rfl
  | write =>
    intro ops hops
    rcases write_batch_cases ⟨o, size⟩ s with h1 | h1
    · exact h ops (by simpa [Call.step, h1.2] using hops)
    · simp [Call.step, h1.2.2] at hops
  | writeSync =>
    intro ops hops
    rcases write_batch_cases ⟨o, size⟩ s with h1 | h1
    · exact h ops (by simpa [Call.step, WriteSync, h1.2] using hops)
    · simp [Call.step, WriteSync, h1.2.2] at hops
  | close =>
    intro ops hops
    simp [Call.step, Close] at hops
  | getByteSize =>
    intro ops hops
    cases o with
    | none => simp [Call.step, GetByteSize] at hops
    | some l => exact h ops (by simpa [Call.step, GetByteSize] using hops)

theorem runCalls_wellTagged (cs : List Call) (st : memDBBatch × MemDB)
    (h : ∀ ops, st.1.ops = some ops → wellTagged ops) :
    ∀ ops, (runCalls cs st).1.ops = some ops → wellTagged ops := by
  induction cs generalizing st with
  | nil => simpa [runCalls] using h
  | cons c cs ih =>
    have := ih (c.step st) (step_wellTagged c st h)
    simpa [runCalls] using this

/-! ## Claims -/

/-- C1: for every open batch whose log `ops` holds Set and Delete operations and
every store `s`, `Write` succeeds, and the resulting store is the left fold of
`ops` over `s` in insertion order, each Set step writing its key and each Delete
step removing its key; the batch is closed afterwards. -/
theorem write_replays_log_in_order (b : memDBBatch) (ops : List operation) (s : MemDB)
    (hopen : b.ops = some ops) (htags : wellTagged ops) :
    (Write b s).1 = none ∧ (Write b s).2.2 = ops.foldl applyOp s ∧
      (Write b s).2.1 = { ops := none, size := 0 } := by
  simp [Write, hopen, replay_wellTagged ops s htags, Close]

/-- Witness of C1 on a log of three operations over the empty store. -/
theorem write_replays_log_in_order_witness :
    (Write { ops := some [⟨opTypeSet, Bytes.mk [97], Bytes.mk [49]⟩,
                          ⟨opTypeDelete, Bytes.mk [98], Bytes.nil⟩,
                          ⟨opTypeSet, Bytes.mk [97], Bytes.mk []⟩], size := 3 } emptyDB).1 = none ∧
    (Write { ops := some [⟨opTypeSet, Bytes.mk [97], Bytes.mk [49]⟩,
                          ⟨opTypeDelete, Bytes.mk [98], Bytes.nil⟩,
                          ⟨opTypeSet, Bytes.mk [97], Bytes.mk []⟩], size := 3 } emptyDB).2.2 =
      ((emptyDB.set (Bytes.mk [97]) (Bytes.mk [49])).delete (Bytes.mk [98])).set
        (Bytes.mk [97]) (Bytes.mk []) :=
  have h := write_replays_log_in_order
    { ops := some [⟨opTypeSet, Bytes.mk [97], Bytes.mk [49]⟩,
                   ⟨opTypeDelete, Bytes.mk [98], Bytes.nil⟩,
                   ⟨opTypeSet, Bytes.mk [97], Bytes.mk []⟩], size := 3 }
    _ emptyDB rfl (by decide)
  ⟨h.1, h.2.1.trans rfl⟩

/-- C2: for every store `s`, every batch `b` built from a new batch by successful
Set/Delete calls `ms` and every key `k`, `Write` succeeds and the entry of `k`
afterwards is decided by the last call on `k`: the value `v` after `Set(k, v)`,
no entry after `Delete(k)`, and the entry of `s` when no call mentions `k`; the
log of `b` is the list of these calls. In particular Set(a,1);Set(a,2) leaves
a=2, Set(a,1);Delete(a) leaves a absent and Delete(a);Set(a,1) leaves a=1. -/
theorem write_last_operation_wins :
    (∀ (s : MemDB) (ms : List Mutation) (b : memDBBatch) (k : List Byte),
      build ms newMemDBBatch = some b →
        b.ops = some (ms.map Mutation.toOperation) ∧
        (Write b s).1 = none ∧
        (Write b s).2.2 k =
          match lastOn k ms with
          | none => s k
          | some (Mutation.set _ v) => some v
          | some (Mutation.delete _) => none) ∧
    (∀ s : MemDB,
      (Write ((newMemDBBatch.Set (Bytes.mk [97]) (Bytes.mk [49])).2.Set
        (Bytes.mk [97]) (Bytes.mk [50])).2 s).1 = none ∧
      (Write ((newMemDBBatch.Set (Bytes.mk [97]) (Bytes.mk [49])).2.Set
        (Bytes.mk [97]) (Bytes.mk [50])).2 s).2.2 [97] = some (Bytes.mk [50])) ∧
    (∀ s : MemDB,
      (Write ((newMemDBBatch.Set (Bytes.mk [97]) (Bytes.mk [49])).2.Delete
        (Bytes.mk [97])).2 s).1 = none ∧
      (Write ((newMemDBBatch.Set (Bytes.mk [97]) (Bytes.mk [49])).2.Delete
        (Bytes.mk [97])).2 s).2.2 [97] = none) ∧
    (∀ s : MemDB,
      (Write ((newMemDBBatch.Delete (Bytes.mk [97])).2.Set
        (Bytes.mk [97]) (Bytes.mk [49])).2 s).1 = none ∧
      (Write ((newMemDBBatch.Delete (Bytes.mk [97])).2.Set
        (Bytes.mk [97]) (Bytes.mk [49])).2 s).2.2 [97] = some (Bytes.mk [49])) := by
  have hds : opTypeDelete ≠ opTypeSet := by decide
  refine ⟨?_, ?_, ?_, ?_⟩
  · intro s ms b k hb
    have hlog : b.ops = some (ms.map Mutation.toOperation) := by
      simpa using build_log ms newMemDBBatch b [] rfl hb
    have hrep := replay_wellTagged _ s (wellTagged_map_toOperation ms)
    refine ⟨hlog, ?_, ?_⟩
    · simp [Write, hlog, hrep, Close]
    · rw [← foldl_applyOp_lookup ms s k]
      simp [Write, hlog, hrep]
  · intro s
    simp [newMemDBBatch, memDBBatch.Set, Bytes.len, Write, replay, Close, MemDB.set, Bytes.data]
  · intro s
    simp [newMemDBBatch, memDBBatch.Set, memDBBatch.Delete, Bytes.len, Write, replay, Close,
      MemDB.set, MemDB.delete, Bytes.data, hds]
  · intro s
    simp [newMemDBBatch, memDBBatch.Set, memDBBatch.Delete, Bytes.len, Write, replay, Close,
      MemDB.set, MemDB.delete, Bytes.data, hds]

/-- Witness of C2: Set(a,1); Delete(b); Set(a,2) on a new batch, flushed into the
empty store, read at key a. -/
theorem write_last_operation_wins_witness :
    build [Mutation.set (Bytes.mk [97]) (Bytes.mk [49]), Mutation.delete (Bytes.mk [98]),
        Mutation.set (Bytes.mk [97]) (Bytes.mk [50])] newMemDBBatch =
      some { ops := some [⟨opTypeSet, Bytes.mk [97], Bytes.mk [49]⟩,
                          ⟨opTypeDelete, Bytes.mk [98], Bytes.nil⟩,
                          ⟨opTypeSet, Bytes.mk [97], Bytes.mk [50]⟩], size := 5 } ∧
    (Write { ops := some [⟨opTypeSet, Bytes.mk [97], Bytes.mk [49]⟩,
                          ⟨opTypeDelete, Bytes.mk [98], Bytes.nil⟩,
                          ⟨opTypeSet, Bytes.mk [97], Bytes.mk [50]⟩], size := 5 } emptyDB).2.2 [97] =
      some (Bytes.mk [50]) :=
  ⟨by decide, ((write_last_operation_wins.1 emptyDB
      [Mutation.set (Bytes.mk [97]) (Bytes.mk [49]), Mutation.delete (Bytes.mk [98]),
        Mutation.set (Bytes.mk [97]) (Bytes.mk [50])] _ [97] (by decide)).2.2).trans (by decide)⟩

/-- C3, the claim as stated fails: on the open batch with an empty log and size
accumulator `math.MaxInt64`, `Set` with key a and the empty value returns no
error, `GetByteSize` returned 9223372036854775807 before and returns
-9223372036854775808 afterwards, which is not the previous size plus
`len(k) + len(v)` = 1. -/
theorem set_size_wraps_at_maxInt :
    (memDBBatch.Set ⟨some [], 9223372036854775807⟩ (Bytes.mk [97]) (Bytes.mk [])).1 = none ∧
    (memDBBatch.GetByteSize ⟨some [], 9223372036854775807⟩).1 = (9223372036854775807, none) ∧
    (memDBBatch.Set ⟨some [], 9223372036854775807⟩ (Bytes.mk [97]) (Bytes.mk [])).2.GetByteSize.1 =
      (-9223372036854775808, none) ∧
    (memDBBatch.Set ⟨some [], 9223372036854775807⟩ (Bytes.mk [97]) (Bytes.mk [])).2.GetByteSize.1 ≠
      ((memDBBatch.GetByteSize ⟨some [], 9223372036854775807⟩).1.1 +
        (((Bytes.mk [97]).len : Int) + ((Bytes.mk []).len : Int)), none) := by
  decide

/-- C3, amended: on every open batch, for every non-empty key `k` and every
non-nil value `v` (the empty slice included), `Set(k, v)` returns no error, the
batch stays open, and `GetByteSize` afterwards returns, without error, the
previous byte size plus `len(k) + len(v)` wrapped around as a 64-bit `int`; this
is exactly the previous byte size plus `len(k) + len(v)` whenever the previous
size is at least `minInt` and that sum is at most `maxInt`. -/
theorem set_succeeds_and_adds_size (b : memDBBatch) (k v : Bytes)
    (hopen : b.ops ≠ none) (hk : k.len ≠ 0) (hv : v ≠ Bytes.nil) :
    (b.Set k v).1 = none ∧ (b.Set k v).2.ops ≠ none ∧
      b.GetByteSize.1.2 = none ∧
      (b.Set k v).2.GetByteSize.1 =
        (wrapInt (b.GetByteSize.1.1 + ((k.len : Int) + (v.len : Int))), none) ∧
      (minInt ≤ b.GetByteSize.1.1 →
        b.GetByteSize.1.1 + ((k.len : Int) + (v.len : Int)) ≤ maxInt →
        (b.Set k v).2.GetByteSize.1 =
          (b.GetByteSize.1.1 + ((k.len : Int) + (v.len : Int)), none)) := by
  obtain ⟨ops, size⟩ := b
  cases ops with
  | none => exact absurd rfl hopen
  | some l =>
    have hsize : addInt size (addInt (k.len : Int) (v.len : Int)) =
        wrapInt (size + ((k.len : Int) + (v.len : Int))) := by
      simp only [addInt, wrapInt_add_wrapInt]
    refine ⟨?_, ?_, ?_, ?_, ?_⟩
    · simp [memDBBatch.Set, hk, hv]
    · simp [memDBBatch.Set, hk, hv]
    · simp [memDBBatch.GetByteSize]
    · simp [memDBBatch.Set, memDBBatch.GetByteSize, hk, hv, hsize]
    · intro hlo hhi
      simp only [memDBBatch.GetByteSize] at hlo hhi
      have hlen : (0 : Int) ≤ (k.len : Int) + (v.len : Int) := by positivity
      have hexact := wrapInt_of_range (size + ((k.len : Int) + (v.len : Int)))
        (by omega) hhi
      simp [memDBBatch.Set, memDBBatch.GetByteSize, hk, hv, hsize, hexact]

/-- Witness of C3, amended: a one-byte key with the empty, non-nil value on an
open batch of byte size 7. -/
theorem set_succeeds_and_adds_size_witness :
    (memDBBatch.Set ⟨some [⟨opTypeDelete, Bytes.mk [98, 99], Bytes.nil⟩], 7⟩
        (Bytes.mk [97]) (Bytes.mk [])).1 = none ∧
    (memDBBatch.Set ⟨some [⟨opTypeDelete, Bytes.mk [98, 99], Bytes.nil⟩], 7⟩
        (Bytes.mk [97]) (Bytes.mk [])).2.GetByteSize.1 = (8, none) :=
  have h := set_succeeds_and_adds_size ⟨some [⟨opTypeDelete, Bytes.mk [98, 99], Bytes.nil⟩], 7⟩
    (Bytes.mk [97]) (Bytes.mk []) (by decide) (by decide) (by decide)
  ⟨h.1, (h.2.2.2.2 (by decide) (by decide)).trans (by decide)⟩

/-- C4, the claim as stated fails: on the open batch with an empty log and size
accumulator `math.MaxInt64 - 1`, `Delete` with the two-byte key ab returns no
error, `GetByteSize` returned 9223372036854775806 before and returns
-9223372036854775808 afterwards, which is not the previous size plus
`len(k)` = 2. -/
theorem delete_size_wraps_at_maxInt :
    (memDBBatch.Delete ⟨some [], 9223372036854775806⟩ (Bytes.mk [97, 98])).1 = none ∧
    (memDBBatch.GetByteSize ⟨some [], 9223372036854775806⟩).1 = (9223372036854775806, none) ∧
    (memDBBatch.Delete ⟨some [], 9223372036854775806⟩ (Bytes.mk [97, 98])).2.GetByteSize.1 =
      (-9223372036854775808, none) ∧
    (memDBBatch.Delete ⟨some [], 9223372036854775806⟩ (Bytes.mk [97, 98])).2.GetByteSize.1 ≠
      ((memDBBatch.GetByteSize ⟨some [], 9223372036854775806⟩).1.1 +
        ((Bytes.mk [97, 98]).len : Int), none) := by
  decide

/-- C4, amended: on every open batch, for every non-empty key `k`, `Delete(k)`
returns no error, the batch stays open, and `GetByteSize` afterwards returns,
without error, the previous byte size plus `len(k)` wrapped around as a 64-bit
`int`; this is exactly the previous byte size plus `len(k)` whenever the
previous size is at least `minInt` and that sum is at most `maxInt`. -/
theorem delete_succeeds_and_adds_size (b : memDBBatch) (k : Bytes)
    (hopen : b.ops ≠ none) (hk : k.len ≠ 0) :
    (b.Delete k).1 = none ∧ (b.Delete k).2.ops ≠ none ∧
      b.GetByteSize.1.2 = none ∧
      (b.Delete k).2.GetByteSize.1 = (wrapInt (b.GetByteSize.1.1 + (k.len : Int)), none) ∧
      (minInt ≤ b.GetByteSize.1.1 → b.GetByteSize.1.1 + (k.len : Int) ≤ maxInt →
        (b.Delete k).2.GetByteSize.1 = (b.GetByteSize.1.1 + (k.len : Int), none)) := by
  obtain ⟨ops, size⟩ := b
  cases ops with
  | none => exact absurd rfl hopen
  | some l =>
    refine ⟨?_, ?_, ?_, ?_, ?_⟩
    · simp [memDBBatch.Delete, hk]
    · simp [memDBBatch.Delete, hk]
    · simp [memDBBatch.GetByteSize]
    · simp [memDBBatch.Delete, memDBBatch.GetByteSize, hk, addInt]
    · intro hlo hhi
      simp only [memDBBatch.GetByteSize] at hlo hhi
      have hlen : (0 : Int) ≤ (k.len : Int) := by positivity
      have hexact := wrapInt_of_range (size + (k.len : Int)) (by omega) hhi
      simp [memDBBatch.Delete, memDBBatch.GetByteSize, hk, addInt, hexact]

/-- Witness of C4, amended: a two-byte key on a new batch. -/
theorem delete_succeeds_and_adds_size_witness :
    (newMemDBBatch.Delete (Bytes.mk [97, 98])).1 = none ∧
    (newMemDBBatch.Delete (Bytes.mk [97, 98])).2.GetByteSize.1 = (2, none) :=
  have h := delete_succeeds_and_adds_size newMemDBBatch (Bytes.mk [97, 98])
    (by decide) (by decide)
  ⟨h.1, (h.2.2.2.2 (by decide) (by decide)).trans (by decide)⟩

/-- C5: on every batch, open or closed, and for every value (non-nil, empty or
nil), `Set` with a key of length 0 returns `errKeyEmpty` and `Delete` with a key
of length 0 returns `errKeyEmpty`; both leave the batch, hence the size
accumulator, as it was. -/
theorem empty_key_rejected (b : memDBBatch) (k v : Bytes) (hk : k.len = 0) :
    (b.Set k v).1 = some errKeyEmpty ∧ (b.Set k v).2.size = b.size ∧ (b.Set k v).2 = b ∧
      (b.Delete k).1 = some errKeyEmpty ∧ (b.Delete k).2.size = b.size ∧
      (b.Delete k).2 = b := by
  simp [memDBBatch.Set, memDBBatch.Delete, hk]

/-- Witness of C5: the nil key with a nil value on a closed batch. -/
theorem empty_key_rejected_witness :
    (memDBBatch.Set ⟨none, 0⟩ Bytes.nil Bytes.nil).1 = some errKeyEmpty ∧
    (memDBBatch.Delete ⟨none, 0⟩ Bytes.nil).1 = some errKeyEmpty :=
  have h := empty_key_rejected ⟨none, 0⟩ Bytes.nil Bytes.nil (by decide)
  ⟨h.1, h.2.2.2.1⟩

/-- C6: on every batch and for every non-empty key `k`, `Set(k, nil)` returns
`errValueNil` and leaves the batch, hence the size accumulator, as it was. The
empty non-nil value differs from nil and is not rejected by that check: `Set`
never returns `errValueNil` for it, and returns no error on an open batch. -/
theorem nil_value_rejected (b : memDBBatch) (k : Bytes) (hk : k.len ≠ 0) :
    (b.Set k Bytes.nil).1 = some errValueNil ∧ (b.Set k Bytes.nil).2.size = b.size ∧
      (b.Set k Bytes.nil).2 = b ∧
      Bytes.mk [] ≠ Bytes.nil ∧
      (b.Set k (Bytes.mk [])).1 ≠ some errValueNil ∧
      (b.ops ≠ none → (b.Set k (Bytes.mk [])).1 = none) := by
  obtain ⟨ops, size⟩ := b
  cases ops <;> simp [memDBBatch.Set, hk]

/-- Witness of C6: key a on a new batch, with the nil value and with the empty
value. -/
theorem nil_value_rejected_witness :
    (newMemDBBatch.Set (Bytes.mk [97]) Bytes.nil).1 = some errValueNil ∧
    (newMemDBBatch.Set (Bytes.mk [97]) (Bytes.mk [])).1 = none :=
  have h := nil_value_rejected newMemDBBatch (Bytes.mk [97]) (by decide)
  ⟨h.1, h.2.2.2.2.2 (by decide)⟩

/-- C7, the claim as stated fails: on a batch closed by `Close`, `Set` with the
empty key returns `errKeyEmpty` and `Set` with key a and the nil value returns
`errValueNil`, neither `errBatchClosed`; `Delete` with the empty key returns
`errKeyEmpty`. -/
theorem closed_batch_error_not_always_batchClosed :
    (newMemDBBatch.Close.2.Set (Bytes.mk []) (Bytes.mk [49])).1 = some errKeyEmpty ∧
    (newMemDBBatch.Close.2.Set (Bytes.mk []) (Bytes.mk [49])).1 ≠ some errBatchClosed ∧
    (newMemDBBatch.Close.2.Set (Bytes.mk [97]) Bytes.nil).1 = some errValueNil ∧
    (newMemDBBatch.Close.2.Set (Bytes.mk [97]) Bytes.nil).1 ≠ some errBatchClosed ∧
    (newMemDBBatch.Close.2.Delete (Bytes.mk [])).1 = some errKeyEmpty ∧
    (newMemDBBatch.Close.2.Delete (Bytes.mk [])).1 ≠ some errBatchClosed := by
  decide

/-- C7, amended: let `c` be a batch after `Close()` or after a successful
`Write()`. Every `Set(k, v)` with a non-empty key and a non-nil value, every
`Delete(k)` with a non-empty key and `GetByteSize` fail with `errBatchClosed`;
`Set` and `Delete` with a key of length 0 fail with `errKeyEmpty`, and `Set` with
a non-empty key and the nil value fails with `errValueNil`; `Close()` again
returns no error. -/
theorem closed_batch_rejects_calls (b c : memDBBatch) (s : MemDB)
    (hc : c = b.Close.2 ∨ ((b.Write s).1 = none ∧ c = (b.Write s).2.1)) :
    (∀ k v : Bytes, k.len ≠ 0 → v ≠ Bytes.nil → (c.Set k v).1 = some errBatchClosed) ∧
      (∀ k v : Bytes, k.len = 0 → (c.Set k v).1 = some errKeyEmpty) ∧
      (∀ k : Bytes, k.len ≠ 0 → (c.Set k Bytes.nil).1 = some errValueNil) ∧
      (∀ k : Bytes, k.len ≠ 0 → (c.Delete k).1 = some errBatchClosed) ∧
      (∀ k : Bytes, k.len = 0 → (c.Delete k).1 = some errKeyEmpty) ∧
      c.GetByteSize.1 = (0, some errBatchClosed) ∧
      c.Close.1 = none := by
  have hclosed : c = { ops := none, size := 0 } := by
    rcases hc with h | ⟨hok, h⟩
    · rw [h]; rfl
    · rw [h]; exact write_ok_closed b s hok
  subst hclosed
  refine ⟨?_, ?_, ?_, ?_, ?_, rfl, rfl⟩
  · intro k v hk hv; simp [memDBBatch.Set, hk, hv]
  · intro k v hk; simp [memDBBatch.Set, hk]
  · intro k hk; simp [memDBBatch.Set, hk]
  · intro k hk; simp [memDBBatch.Delete, hk]
  · intro k hk; simp [memDBBatch.Delete, hk]

/-- Witness of C7, amended: a batch holding one Set, flushed with success into
the empty store, then called with valid arguments. -/
theorem closed_batch_rejects_calls_witness :
    (memDBBatch.Write ⟨some [⟨opTypeSet, Bytes.mk [97], Bytes.mk [49]⟩], 2⟩ emptyDB).1 = none ∧
    ((memDBBatch.Write ⟨some [⟨opTypeSet, Bytes.mk [97], Bytes.mk [49]⟩], 2⟩ emptyDB).2.1.Set
      (Bytes.mk [98]) (Bytes.mk [50])).1 = some errBatchClosed ∧
    ((memDBBatch.Write ⟨some [⟨opTypeSet, Bytes.mk [97], Bytes.mk [49]⟩], 2⟩ emptyDB).2.1.Delete
      (Bytes.mk [98])).1 = some errBatchClosed :=
  have h := closed_batch_rejects_calls ⟨some [⟨opTypeSet, Bytes.mk [97], Bytes.mk [49]⟩], 2⟩
    (memDBBatch.Write ⟨some [⟨opTypeSet, Bytes.mk [97], Bytes.mk [49]⟩], 2⟩ emptyDB).2.1 emptyDB
    (Or.inr ⟨by decide, rfl⟩)
  ⟨by decide, h.1 (Bytes.mk [98]) (Bytes.mk [50]) (by decide) (by decide),
    h.2.2.2.1 (Bytes.mk [98]) (by decide)⟩

/-- C8: let `b` be the batch reached from `newMemDBBatch` by any sequence of
Set, Delete, Write, WriteSync, Close and GetByteSize calls, and `s` any store.
`Write` returns an error exactly when `b` is closed; the error is then
`errBatchClosed` and the store and the batch are as before; the unknown-operation
error is never returned, every logged operation being tagged Set or Delete. -/
theorem write_fails_only_when_closed (cs : List Call) (s0 s : MemDB) (b : memDBBatch)
    (hb : (runCalls cs (newMemDBBatch, s0)).1 = b) :
    ((b.Write s).1 ≠ none ↔ b.ops = none) ∧
      ((b.Write s).1 ≠ none → b.Write s = (some errBatchClosed, b, s)) ∧
      (∀ t : Int, (b.Write s).1 ≠ some (Error.unknownOperation t)) ∧
      (∀ ops, b.ops = some ops → ∀ op ∈ ops, op.opType = opTypeSet ∨ op.opType = opTypeDelete) := by
  have hinv : ∀ ops, b.ops = some ops → wellTagged ops := by
    rw [← hb]
    apply runCalls_wellTagged
    intro ops hops
    simp only [newMemDBBatch, Option.some.injEq] at hops
    subst hops
    intro op hop
    simp at hop
  obtain ⟨o, size⟩ := b
  cases o with
  | none => simp [Write]
  | some l =>
    have hrep := replay_wellTagged l s (hinv l rfl)
    refine ⟨?_, ?_, ?_, ?_⟩
    · simp [Write, hrep, Close]
    · simp [Write, hrep, Close]
    · intro t; simp [Write, hrep, Close]
    · intro ops hops; exact hinv ops hops

/-- Witness of C8: after Set(a,1); Delete(b); Write; Set(a,2) the batch is closed
and a further Write fails with `errBatchClosed`, the store untouched. -/
theorem write_fails_only_when_closed_witness :
    (runCalls [Call.set (Bytes.mk [97]) (Bytes.mk [49]), Call.delete (Bytes.mk [98]), Call.write,
        Call.set (Bytes.mk [97]) (Bytes.mk [50])] (newMemDBBatch, emptyDB)).1 = ⟨none, 0⟩ ∧
    memDBBatch.Write ⟨none, 0⟩ emptyDB = (some errBatchClosed, ⟨none, 0⟩, emptyDB) :=
  have h := write_fails_only_when_closed
    [Call.set (Bytes.mk [97]) (Bytes.mk [49]), Call.delete (Bytes.mk [98]), Call.write,
      Call.set (Bytes.mk [97]) (Bytes.mk [50])] emptyDB emptyDB ⟨none, 0⟩ (by decide)
  ⟨by decide, h.2.1 (h.1.mpr rfl)⟩

/-- C9: `Close` returns no error on every batch and leaves it closed, with no
operations and size 0; a second `Close` returns no error and yields the same
batch as the first; `Close` after a successful `Write` returns no error and
leaves the batch as `Write` left it. -/
theorem close_always_succeeds_idempotent (b : memDBBatch) (s : MemDB) :
    b.Close.1 = none ∧ b.Close.2.ops = none ∧ b.Close.2.size = 0 ∧
      b.Close.2.Close.1 = none ∧ b.Close.2.Close.2 = b.Close.2 ∧
      ((b.Write s).1 = none →
        (b.Write s).2.1.Close.1 = none ∧ (b.Write s).2.1.Close.2 = (b.Write s).2.1) := by
  refine ⟨rfl, rfl, rfl, rfl, rfl, ?_⟩
  intro hok
  rw [write_ok_closed b s hok]
  exact ⟨rfl, rfl⟩

/-- Witness of C9: `Close` after flushing a batch of one Delete into the empty
store. -/
theorem close_always_succeeds_idempotent_witness :
    (memDBBatch.Write ⟨some [⟨opTypeDelete, Bytes.mk [97], Bytes.nil⟩], 1⟩ emptyDB).1 = none ∧
    (memDBBatch.Write ⟨some [⟨opTypeDelete, Bytes.mk [97], Bytes.nil⟩], 1⟩ emptyDB).2.1.Close.2 =
      ⟨none, 0⟩ :=
  have h := (close_always_succeeds_idempotent
    ⟨some [⟨opTypeDelete, Bytes.mk [97], Bytes.nil⟩], 1⟩ emptyDB).2.2.2.2.2 (by decide)
  ⟨by decide, h.2.trans (by decide)⟩

/-- C10: for every store `s`, `Write` on an open batch with an empty log returns
no error, leaves the store as it was and leaves the batch closed (log cleared,
size 0); the batch returned by `newMemDBBatch` is such a batch. -/
theorem write_on_empty_open_batch (s : MemDB) :
    (∀ b : memDBBatch, b.ops = some [] → b.Write s = (none, { ops := none, size := 0 }, s)) ∧
      newMemDBBatch.ops = some [] ∧ newMemDBBatch.ops ≠ none ∧ newMemDBBatch.size = 0 ∧
      newMemDBBatch.Write s = (none, { ops := none, size := 0 }, s) := by
  refine ⟨?_, rfl, by simp [newMemDBBatch], rfl, rfl⟩
  intro b hb
  simp [Write, hb, replay, Close]

/-- Witness of C10: an open batch with an empty log flushed into a store holding
one entry. -/
theorem write_on_empty_open_batch_witness :
    memDBBatch.Write ⟨some [], 0⟩ (emptyDB.set (Bytes.mk [97]) (Bytes.mk [49])) =
      (none, ⟨none, 0⟩, emptyDB.set (Bytes.mk [97]) (Bytes.mk [49])) :=
  (write_on_empty_open_batch (emptyDB.set (Bytes.mk [97]) (Bytes.mk [49]))).1 ⟨some [], 0⟩ rfl

/-! ## Lemmas on the size accumulator and on closed batches -/

theorem logBytes_append_singleton (l : List operation) (op : operation) :
    logBytes (l ++ [op]) = logBytes l + opBytes op := by
  simp [logBytes, List.map_append, List.sum_append]

theorem opBytes_nonneg (op : operation) : 0 ≤ opBytes op := by
  unfold opBytes
  split
  · positivity
  · split
    · positivity
    · exact le_refl 0

theorem logBytes_nonneg (ops : List operation) : 0 ≤ logBytes ops := by
  induction ops with
  | nil => simp [logBytes]
  | cons op rest ih =>
    have hop := opBytes_nonneg op
    simp only [logBytes, List.map_cons, List.sum_cons] at ih ⊢
    omega

theorem logBytes_replicate (n : Nat) (op : operation) :
    logBytes (List.replicate n op) = (n : Int) * opBytes op := by
  induction n with
  | zero => simp [logBytes]
  | succ m ih =>
    simp only [logBytes, List.replicate_succ, List.map_cons, List.sum_cons] at ih ⊢
    rw [ih]
    push_cast
    ring

theorem wrapInt_zero : wrapInt 0 = 0 := by
  decide

theorem step_size (c : Call) (st : memDBBatch × MemDB)
    (h : st.1.size = wrapInt (logBytes (currentLog st.1))) :
    (c.step st).1.size = wrapInt (logBytes (currentLog (c.step st).1)) := by
  obtain ⟨⟨o, size⟩, s⟩ := st
  have hds : opTypeDelete ≠ opTypeSet := by decide
  cases c with
  | set k v =>
    by_cases hk : k.len = 0
    · simpa [Call.step, memDBBatch.Set, hk] using h
    · by_cases hv : v = Bytes.nil
      · simpa [Call.step, memDBBatch.Set, hk, hv] using h
      · cases o with
        | none => simpa [Call.step, memDBBatch.Set, hk, hv] using h
        | some l =>
          simp only [currentLog, Option.getD_some] at h
          simp only [Call.step, memDBBatch.Set, hk, hv, if_false, currentLog, Option.getD_some,
            logBytes_append_singleton, opBytes, if_true, h, addInt]
          rw [wrapInt_wrapInt_add_wrapInt]
  | delete k =>
    by_cases hk : k.len = 0
    · simpa [Call.step, memDBBatch.Delete, hk] using h
    · cases o with
      | none => simpa [Call.step, memDBBatch.Delete, hk] using h
      | some l =>
        simp only [currentLog, Option.getD_some] at h
        simp only [Call.step, memDBBatch.Delete, hk, if_false, currentLog, Option.getD_some,
          logBytes_append_singleton, opBytes, hds, if_true, h, addInt]
        rw [add_comm (wrapInt (logBytes l)), wrapInt_add_wrapInt, add_comm]
  | write =>
    rcases write_batch_cases ⟨o, size⟩ s with h1 | h1
    · simpa [Call.step, h1.2] using h
    · simp [Call.step, h1.2.2, currentLog, logBytes, wrapInt_zero]
  | writeSync =>
    rcases write_batch_cases ⟨o, size⟩ s with h1 | h1
    · simpa [Call.step, WriteSync, h1.2] using h
    · simp [Call.step, WriteSync, h1.2.2, currentLog, logBytes, wrapInt_zero]
  | close => simp [Call.step, Close, currentLog, logBytes, wrapInt_zero]
  | getByteSize =>
    cases o with
    | none => simpa [Call.step, GetByteSize] using h
    | some l => simpa [Call.step, GetByteSize] using h

theorem runCalls_size (cs : List Call) (st : memDBBatch × MemDB)
    (h : st.1.size = wrapInt (logBytes (currentLog st.1))) :
    (runCalls cs st).1.size = wrapInt (logBytes (currentLog (runCalls cs st).1)) := by
  induction cs generalizing st with
  | nil => simpa [runCalls] using h
  | cons c cs ih =>
    have := ih (c.step st) (step_size c st h)
    simpa [runCalls] using this

theorem runCalls_replicate_set_log (n : Nat) (k v : Bytes) (hk : k.len ≠ 0)
    (hv : v ≠ Bytes.nil) (l : List operation) (size : Int) (s : MemDB) :
    (runCalls (List.replicate n (Call.set k v)) (⟨some l, size⟩, s)).1.ops =
      some (l ++ List.replicate n ⟨opTypeSet, k, v⟩) := by
  induction n generalizing l size with
  | zero => simp [runCalls]
  | succ m ih =>
    have hstep : (Call.set k v).step (⟨some l, size⟩, s) =
        (⟨some (l ++ [⟨opTypeSet, k, v⟩]),
          addInt size (addInt (k.len : Int) (v.len : Int))⟩, s) := by
      simp [Call.step, memDBBatch.Set, hk, hv]
    have hrun : runCalls (List.replicate (m + 1) (Call.set k v)) (⟨some l, size⟩, s) =
        runCalls (List.replicate m (Call.set k v))
          ((Call.set k v).step (⟨some l, size⟩, s)) := by
      simp [runCalls, List.replicate_succ]
    rw [hrun, hstep, ih]
    simp [List.replicate_succ]

theorem newMemDBBatch_size : newMemDBBatch.size = wrapInt (logBytes (currentLog newMemDBBatch)) := by
  decide

/-- C11, the claim as stated fails: 268435456 calls `Set(k, k)` on a new batch,
`k` a slice of 17179869184 bytes, all succeed and leave a log whose operations
sum to 2^63 = 9223372036854775808 bytes, while the size accumulator, and the
result of `GetByteSize`, is -9223372036854775808. -/
theorem size_differs_from_log_bytes_after_wrap :
    logBytes (currentLog (runCalls (List.replicate 268435456
        (Call.set (Bytes.mk (List.replicate 17179869184 0))
          (Bytes.mk (List.replicate 17179869184 0)))) (newMemDBBatch, emptyDB)).1) =
      9223372036854775808 ∧
    (runCalls (List.replicate 268435456
        (Call.set (Bytes.mk (List.replicate 17179869184 0))
          (Bytes.mk (List.replicate 17179869184 0)))) (newMemDBBatch, emptyDB)).1.size =
      -9223372036854775808 ∧
    (runCalls (List.replicate 268435456
        (Call.set (Bytes.mk (List.replicate 17179869184 0))
          (Bytes.mk (List.replicate 17179869184 0)))) (newMemDBBatch, emptyDB)).1.size ≠
      logBytes (currentLog (runCalls (List.replicate 268435456
        (Call.set (Bytes.mk (List.replicate 17179869184 0))
          (Bytes.mk (List.replicate 17179869184 0)))) (newMemDBBatch, emptyDB)).1) := by
  have hlen : (Bytes.mk (List.replicate 17179869184 0)).len = 17179869184 := by
    simp only [Bytes.len, List.length_replicate]
  have hk : (Bytes.mk (List.replicate 17179869184 0)).len ≠ 0 := by
    rw [hlen]; decide
  have hlog := runCalls_replicate_set_log 268435456 (Bytes.mk (List.replicate 17179869184 0))
    (Bytes.mk (List.replicate 17179869184 0)) hk (fun h => Bytes.noConfusion h) [] 0 emptyDB
  have hsize := runCalls_size (List.replicate 268435456
    (Call.set (Bytes.mk (List.replicate 17179869184 0))
      (Bytes.mk (List.replicate 17179869184 0)))) (newMemDBBatch, emptyDB) newMemDBBatch_size
  have hbytes : logBytes (currentLog (runCalls (List.replicate 268435456
      (Call.set (Bytes.mk (List.replicate 17179869184 0))
        (Bytes.mk (List.replicate 17179869184 0)))) (newMemDBBatch, emptyDB)).1) =
      9223372036854775808 := by
    have hnew : (newMemDBBatch, emptyDB) = ((⟨some [], 0⟩ : memDBBatch), emptyDB) := rfl
    rw [hnew, currentLog, hlog, Option.getD_some, List.nil_append, logBytes_replicate]
    simp only [opBytes, if_true, hlen]
    norm_num
  rw [hbytes] at hsize
  have hwrap : wrapInt 9223372036854775808 = -9223372036854775808 := by decide
  rw [hwrap] at hsize
  refine ⟨hbytes, hsize, ?_⟩
  rw [hsize, hbytes]
  decide

/-- C11, amended: in every batch state `b` reached from `newMemDBBatch` by a
sequence of Set, Delete, Write, WriteSync, Close (and GetByteSize) calls,
successful or failing, the size accumulator equals the sum over the current log
of `len(key)+len(value)` for Set operations and `len(key)` for Delete
operations, wrapped around as a 64-bit `int`; it equals that sum exactly
whenever the sum is at most `maxInt`; it is 0 when the log is empty and when the
batch is closed, and `GetByteSize` on an open batch returns the accumulator
without error. -/
theorem size_equals_log_bytes (cs : List Call) (s0 : MemDB) (b : memDBBatch)
    (hb : (runCalls cs (newMemDBBatch, s0)).1 = b) :
    b.size = wrapInt (logBytes (currentLog b)) ∧
      (logBytes (currentLog b) ≤ maxInt → b.size = logBytes (currentLog b)) ∧
      (b.ops = some [] → b.size = 0) ∧
      (b.ops = none → b.size = 0) ∧
      (∀ l, b.ops = some l → b.GetByteSize.1 = (wrapInt (logBytes l), none)) ∧
      (∀ l, b.ops = some l → logBytes l ≤ maxInt → b.GetByteSize.1 = (logBytes l, none)) := by
  have hinv : b.size = wrapInt (logBytes (currentLog b)) := by
    rw [← hb]
    exact runCalls_size cs (newMemDBBatch, s0) newMemDBBatch_size
  have hexact : ∀ l : List operation, logBytes l ≤ maxInt → wrapInt (logBytes l) = logBytes l := by
    intro l hl
    have h0 := logBytes_nonneg l
    exact wrapInt_of_range _ (by unfold minInt; omega) hl
  refine ⟨hinv, ?_, ?_, ?_, ?_, ?_⟩
  · intro hle; rw [hinv, hexact _ hle]
  · intro h; simpa [currentLog, h, logBytes, wrapInt_zero] using hinv
  · intro h; simpa [currentLog, h, logBytes, wrapInt_zero] using hinv
  · intro l h
    have : b.size = wrapInt (logBytes l) := by simpa [currentLog, h] using hinv
    simp [GetByteSize, h, this]
  · intro l h hle
    have : b.size = logBytes l := by
      rw [← hexact l hle]; simpa [currentLog, h] using hinv
    simp [GetByteSize, h, this]

/-- Witness of C11, amended: Set(a,12); Delete(empty key) failing; Delete(bc);
GetByteSize leave a log of two operations worth 3 + 2 bytes. -/
theorem size_equals_log_bytes_witness :
    (runCalls [Call.set (Bytes.mk [97]) (Bytes.mk [49, 50]), Call.delete (Bytes.mk []),
        Call.delete (Bytes.mk [98, 99]), Call.getByteSize] (newMemDBBatch, emptyDB)).1 =
      ⟨some [⟨opTypeSet, Bytes.mk [97], Bytes.mk [49, 50]⟩,
             ⟨opTypeDelete, Bytes.mk [98, 99], Bytes.nil⟩], 5⟩ ∧
    memDBBatch.GetByteSize ⟨some [⟨opTypeSet, Bytes.mk [97], Bytes.mk [49, 50]⟩,
             ⟨opTypeDelete, Bytes.mk [98, 99], Bytes.nil⟩], 5⟩ =
      ((5, none), ⟨some [⟨opTypeSet, Bytes.mk [97], Bytes.mk [49, 50]⟩,
             ⟨opTypeDelete, Bytes.mk [98, 99], Bytes.nil⟩], 5⟩) :=
  have h := size_equals_log_bytes
    [Call.set (Bytes.mk [97]) (Bytes.mk [49, 50]), Call.delete (Bytes.mk []),
      Call.delete (Bytes.mk [98, 99]), Call.getByteSize] emptyDB
    ⟨some [⟨opTypeSet, Bytes.mk [97], Bytes.mk [49, 50]⟩,
           ⟨opTypeDelete, Bytes.mk [98, 99], Bytes.nil⟩], 5⟩ (by decide)
  ⟨by decide, Prod.ext ((h.2.2.2.2.2 _ rfl (by decide)).trans (by decide)) rfl⟩

theorem step_closed (c : Call) (st : memDBBatch × MemDB) (h : st.1.ops = none) :
    (c.step st).1.ops = none ∧
      ((c.step st).1.size = st.1.size ∨ (c.step st).1.size = 0) ∧ (c.step st).2 = st.2 := by
  obtain ⟨⟨o, size⟩, s⟩ := st
  simp only at h
  subst h
  cases c with
  | set k v =>
    by_cases hk : k.len = 0 <;> by_cases hv : v = Bytes.nil <;>
      simp [Call.step, memDBBatch.Set, hk, hv]
  | delete k => by_cases hk : k.len = 0 <;> simp [Call.step, memDBBatch.Delete, hk]
  | write => simp [Call.step, Write]
  | writeSync => simp [Call.step, WriteSync, Write]
  | close => simp [Call.step, Close]
  | getByteSize => simp [Call.step, GetByteSize]

theorem runCalls_closed (cs : List Call) (st : memDBBatch × MemDB) (h : st.1.ops = none) :
    (runCalls cs st).1.ops = none ∧
      ((runCalls cs st).1.size = st.1.size ∨ (runCalls cs st).1.size = 0) ∧
      (runCalls cs st).2 = st.2 := by
  induction cs generalizing st with
  | nil => simp [runCalls, h]
  | cons c cs ih =>
    obtain ⟨h1, h2, h3⟩ := step_closed c st h
    obtain ⟨i1, i2, i3⟩ := ih (c.step st) h1
    have hrun : runCalls (c :: cs) st = runCalls cs (c.step st) := by simp [runCalls]
    rw [hrun]
    refine ⟨i1, ?_, i3.trans h3⟩
    rcases i2 with i2 | i2
    · rcases h2 with h2 | h2
      · exact Or.inl (i2.trans h2)
      · exact Or.inr (i2.trans h2)
    · exact Or.inr i2

/-! ## Lemmas on the receiver with its `db` field -/

theorem receiver_set_db (b : receiver) (k v : Bytes) : (b.Set k v).2.db = b.db := by
  obtain ⟨db, o, size⟩ := b
  by_cases hk : k.len = 0
  · simp [receiver.Set, hk]
  · by_cases hv : v = Bytes.nil
    · simp [receiver.Set, hk, hv]
    · cases o <;> simp [receiver.Set, hk, hv]

theorem receiver_delete_db (b : receiver) (k : Bytes) : (b.Delete k).2.db = b.db := by
  obtain ⟨db, o, size⟩ := b
  by_cases hk : k.len = 0
  · simp [receiver.Delete, hk]
  · cases o <;> simp [receiver.Delete, hk]

theorem receiver_getByteSize_db (b : receiver) : b.GetByteSize.2.db = b.db := by
  obtain ⟨db, o, size⟩ := b
  cases o <;> simp [receiver.GetByteSize]

theorem execCalls_frame (cs : List Call) (b : receiver)
    (h : ∀ c ∈ cs, c ≠ Call.write ∧ c ≠ Call.writeSync) :
    (execCalls cs b).db = b.db := by
  induction cs generalizing b with
  | nil => simp [execCalls]
  | cons c cs ih =>
    have hrun : execCalls (c :: cs) b = execCalls cs (c.exec b) := by simp [execCalls]
    have hc := h c (List.mem_cons_self _ _)
    have hstep : (c.exec b).db = b.db := by
      cases c with
      | set k v => exact receiver_set_db b k v
      | delete k => exact receiver_delete_db b k
      | write => exact absurd rfl hc.1
      | writeSync => exact absurd rfl hc.2
      | close => rfl
      | getByteSize => exact receiver_getByteSize_db b
    rw [hrun, ih (c.exec b) (fun d hd => h d (List.mem_cons_of_mem _ hd)), hstep]

theorem exec_closed (c : Call) (b : receiver) (h : b.ops = none) :
    (c.exec b).ops = none ∧ (c.exec b).db = b.db := by
  obtain ⟨db, o, size⟩ := b
  simp only at h
  subst h
  cases c with
  | set k v =>
    by_cases hk : k.len = 0 <;> by_cases hv : v = Bytes.nil <;>
      simp [Call.exec, receiver.Set, hk, hv]
  | delete k => by_cases hk : k.len = 0 <;> simp [Call.exec, receiver.Delete, hk]
  | write => simp [Call.exec, receiver.Write]
  | writeSync => simp [Call.exec, receiver.WriteSync, receiver.Write]
  | close => simp [Call.exec, receiver.Close]
  | getByteSize => simp [Call.exec, receiver.GetByteSize]

theorem execCalls_closed (cs : List Call) (b : receiver) (h : b.ops = none) :
    (execCalls cs b).ops = none ∧ (execCalls cs b).db = b.db := by
  induction cs generalizing b with
  | nil => simp [execCalls, h]
  | cons c cs ih =>
    obtain ⟨h1, h2⟩ := exec_closed c b h
    obtain ⟨i1, i2⟩ := ih (c.exec b) h1
    have hrun : execCalls (c :: cs) b = execCalls cs (c.exec b) := by simp [execCalls]
    rw [hrun]
    exact ⟨i1, i2.trans h2⟩

/-- C12: closed is terminal. From every closed batch (`ops` nil) and every store,
after every finite sequence of Set, Delete, Write, WriteSync, Close and
GetByteSize calls with any arguments the batch is still closed, its log is
empty, its size is the size it had or 0, hence 0 for a batch closed with size 0
as `Close` and `Write` leave it, and the store is as it was. -/
theorem closed_is_terminal (b : memDBBatch) (s : MemDB) (cs : List Call)
    (hclosed : b.ops = none) :
    (runCalls cs (b, s)).1.ops = none ∧
      currentLog (runCalls cs (b, s)).1 = [] ∧
      (b.size = 0 → (runCalls cs (b, s)).1.size = 0) ∧
      (b.size = 0 → (runCalls cs (b, s)).1 = b) ∧
      (runCalls cs (b, s)).2 = s := by
  obtain ⟨h1, h2, h3⟩ := runCalls_closed cs (b, s) hclosed
  have hsize : b.size = 0 → (runCalls cs (b, s)).1.size = 0 := by
    intro h0
    rcases h2 with h2 | h2
    · exact h2.trans h0
    · exact h2
  refine ⟨h1, by simp [currentLog, h1], hsize, ?_, h3⟩
  intro h0
  have hs := hsize h0
  obtain ⟨o, size⟩ := b
  simp only at hclosed h0
  subst hclosed
  subst h0
  generalize (runCalls cs (⟨none, 0⟩, s)).1 = r at h1 hs
  obtain ⟨ro, rsize⟩ := r
  simp only at h1 hs
  subst h1
  subst hs
  rfl

/-- Witness of C12: a batch closed by `Close`, then Set, Write, Delete with the
empty key, Close, GetByteSize, WriteSync. -/
theorem closed_is_terminal_witness :
    (runCalls [Call.set (Bytes.mk [97]) (Bytes.mk [49]), Call.write, Call.delete (Bytes.mk []),
        Call.close, Call.getByteSize, Call.writeSync]
      ((newMemDBBatch.Set (Bytes.mk [98]) (Bytes.mk [50])).2.Close.2, emptyDB)).1 = ⟨none, 0⟩ :=
  (closed_is_terminal (newMemDBBatch.Set (Bytes.mk [98]) (Bytes.mk [50])).2.Close.2 emptyDB
    [Call.set (Bytes.mk [97]) (Bytes.mk [49]), Call.write, Call.delete (Bytes.mk []),
      Call.close, Call.getByteSize, Call.writeSync] rfl).2.2.2.1 rfl

/-- C13: Set, Delete, GetByteSize and Close leave the store `b.db` as it was,
whatever the receiver and the arguments, and whether they succeed or fail; so
does every sequence of calls without Write and WriteSync. On the fields `ops`
and `size` and on the error, the four methods and Write do what the definitions
without the field `db` do, and Write leaves the store those give. Write can
change the store. Close on an open batch with pending operations drops them: the
store is the same after Close, and after any further calls, Write included. -/
theorem only_write_changes_store (b : receiver) :
    (∀ k v : Bytes, (b.Set k v).2.db = b.db) ∧
      (∀ k : Bytes, (b.Delete k).2.db = b.db) ∧
      b.GetByteSize.2.db = b.db ∧
      b.Close.2.db = b.db ∧
      (∀ cs : List Call, (∀ c ∈ cs, c ≠ Call.write ∧ c ≠ Call.writeSync) →
        (execCalls cs b).db = b.db) ∧
      (∀ k v : Bytes, (b.Set k v).1 = (b.batch.Set k v).1 ∧
        (b.Set k v).2.batch = (b.batch.Set k v).2) ∧
      (∀ k : Bytes, (b.Delete k).1 = (b.batch.Delete k).1 ∧
        (b.Delete k).2.batch = (b.batch.Delete k).2) ∧
      (b.GetByteSize.1 = b.batch.GetByteSize.1 ∧ b.GetByteSize.2.batch = b.batch.GetByteSize.2) ∧
      (b.Close.1 = b.batch.Close.1 ∧ b.Close.2.batch = b.batch.Close.2) ∧
      (b.Write.1 = (b.batch.Write b.db).1 ∧ b.Write.2.batch = (b.batch.Write b.db).2.1 ∧
        b.Write.2.db = (b.batch.Write b.db).2.2) ∧
      (receiver.Write ⟨emptyDB, some [⟨opTypeSet, Bytes.mk [97], Bytes.mk [49]⟩], 2⟩).2.db
        ≠ emptyDB ∧
      (∀ cs : List Call, (execCalls (Call.close :: cs) b).db = b.db) := by
  refine ⟨fun k v => receiver_set_db b k v, fun k => receiver_delete_db b k,
    receiver_getByteSize_db b, rfl, ?_, ?_, ?_, ?_, ⟨rfl, rfl⟩, ?_, ?_, ?_⟩
  · intro cs hcs
    exact execCalls_frame cs b hcs
  · intro k v
    obtain ⟨db, o, size⟩ := b
    by_cases hk : k.len = 0
    · simp [receiver.Set, memDBBatch.Set, receiver.batch, hk]
    · by_cases hv : v = Bytes.nil
      · simp [receiver.Set, memDBBatch.Set, receiver.batch, hk, hv]
      · cases o <;> simp [receiver.Set, memDBBatch.Set, receiver.batch, hk, hv]
  · intro k
    obtain ⟨db, o, size⟩ := b
    by_cases hk : k.len = 0
    · simp [receiver.Delete, memDBBatch.Delete, receiver.batch, hk]
    · cases o <;> simp [receiver.Delete, memDBBatch.Delete, receiver.batch, hk]
  · obtain ⟨db, o, size⟩ := b
    cases o <;> simp [receiver.GetByteSize, memDBBatch.GetByteSize, receiver.batch]
  · obtain ⟨db, o, size⟩ := b
    cases o with
    | none => simp [receiver.Write, memDBBatch.Write, receiver.batch]
    | some l =>
      rcases hr : replay l db with ⟨e, db1⟩
      cases e <;>
        simp [receiver.Write, memDBBatch.Write, receiver.batch, hr, receiver.Close,
          memDBBatch.Close]
  · intro h
    have h1 := congrFun h [97]
    simp [receiver.Write, replay, receiver.Close, MemDB.set, Bytes.data, emptyDB] at h1
  · intro cs
    have hrun : execCalls (Call.close :: cs) b = execCalls cs b.Close.2 := by
      simp [execCalls, Call.exec]
    rw [hrun]
    exact (execCalls_closed cs b.Close.2 rfl).2

/-- Witness of C13: Set(a,1); Delete(b); GetByteSize; Close on a new batch leave
a store holding one entry as it was. -/
theorem only_write_changes_store_witness :
    (execCalls [Call.set (Bytes.mk [97]) (Bytes.mk [49]), Call.delete (Bytes.mk [98]),
        Call.getByteSize, Call.close]
      ⟨emptyDB.set (Bytes.mk [98]) (Bytes.mk [50]), some [], 0⟩).db =
      emptyDB.set (Bytes.mk [98]) (Bytes.mk [50]) :=
  (only_write_changes_store ⟨emptyDB.set (Bytes.mk [98]) (Bytes.mk [50]), some [], 0⟩).2.2.2.2.1
    [Call.set (Bytes.mk [97]) (Bytes.mk [49]), Call.delete (Bytes.mk [98]),
      Call.getByteSize, Call.close] (by decide)

/-- C14: `WriteSync` returns the same error, the same batch and the same store
as `Write`, on every batch and every store. -/
theorem writeSync_same_as_write (b : memDBBatch) (s : MemDB) :
    (b.WriteSync s).1 = (b.Write s).1 ∧ (b.WriteSync s).2.1 = (b.Write s).2.1 ∧
      (b.WriteSync s).2.2 = (b.Write s).2.2 ∧ b.WriteSync s = b.Write s :=
  ⟨rfl, rfl, rfl, rfl⟩

/-- C16: the log is append-only. On an open batch with log `L`, a successful
`Set(k, v)` leaves the log `L` followed by the one operation Set{k, v}, and a
successful `Delete(k)` leaves it `L` followed by the one operation Delete{k}
with no value. After any call the log is `L`, or `L` followed by one operation,
or it has been reset by Close, Write or WriteSync. -/
theorem log_is_append_only (b : memDBBatch) (L : List operation) (hL : b.ops = some L) :
    (∀ k v : Bytes, (b.Set k v).1 = none →
        (b.Set k v).2.ops = some (L ++ [⟨opTypeSet, k, v⟩])) ∧
      (∀ k : Bytes, (b.Delete k).1 = none →
        (b.Delete k).2.ops = some (L ++ [⟨opTypeDelete, k, Bytes.nil⟩])) ∧
      (∀ (c : Call) (s : MemDB),
        (c.step (b, s)).1.ops = some L ∨
        (∃ op : operation, (c.step (b, s)).1.ops = some (L ++ [op])) ∨
        ((c.step (b, s)).1.ops = none ∧
          (c = Call.close ∨ c = Call.write ∨ c = Call.writeSync))) := by
  obtain ⟨o, size⟩ := b
  simp only at hL
  subst hL
  refine ⟨?_, ?_, ?_⟩
  · intro k v hok
    by_cases hk : k.len = 0
    · simp [memDBBatch.Set, hk] at hok
    · by_cases hv : v = Bytes.nil
      · simp [memDBBatch.Set, hk, hv] at hok
      · simp [memDBBatch.Set, hk, hv]
  · intro k hok
    by_cases hk : k.len = 0
    · simp [memDBBatch.Delete, hk] at hok
    · simp [memDBBatch.Delete, hk]
  · intro c s
    cases c with
    | set k v =>
      by_cases hk : k.len = 0
      · left; simp [Call.step, memDBBatch.Set, hk]
      · by_cases hv : v = Bytes.nil
        · left; simp [Call.step, memDBBatch.Set, hk, hv]
        · right; left
          exact ⟨⟨opTypeSet, k, v⟩, by simp [Call.step, memDBBatch.Set, hk, hv]⟩
    | delete k =>
      by_cases hk : k.len = 0
      · left; simp [Call.step, memDBBatch.Delete, hk]
      · right; left
        exact ⟨⟨opTypeDelete, k, Bytes.nil⟩, by simp [Call.step, memDBBatch.Delete, hk]⟩
    | write =>
      rcases write_batch_cases ⟨some L, size⟩ s with h1 | h1
      · left; simp [Call.step, h1.2]
      · right; right; simp [Call.step, h1.2.2]
    | writeSync =>
      rcases write_batch_cases ⟨some L, size⟩ s with h1 | h1
      · left; simp [Call.step, WriteSync, h1.2]
      · right; right; simp [Call.step, WriteSync, h1.2.2]
    | close => right; right; simp [Call.step, Close]
    | getByteSize => left; simp [Call.step, GetByteSize]

/-- Witness of C16: Set(b, empty value) on a batch whose log holds one Delete. -/
theorem log_is_append_only_witness :
    (memDBBatch.Set ⟨some [⟨opTypeDelete, Bytes.mk [97], Bytes.nil⟩], 1⟩
        (Bytes.mk [98]) (Bytes.mk [])).2.ops =
      some [⟨opTypeDelete, Bytes.mk [97], Bytes.nil⟩, ⟨opTypeSet, Bytes.mk [98], Bytes.mk []⟩] :=
  (log_is_append_only ⟨some [⟨opTypeDelete, Bytes.mk [97], Bytes.nil⟩], 1⟩ _ rfl).1
    (Bytes.mk [98]) (Bytes.mk []) (by decide)

/-- C17: failed mutations change nothing. Whenever `Set` or `Delete` returns an
error, that error is `errKeyEmpty`, `errValueNil` or `errBatchClosed`, and the
batch (log, size accumulator, open or closed) and the store are what they were
before the call. -/
theorem failed_mutation_changes_nothing (b : memDBBatch) (s : MemDB) (k v : Bytes) :
    ((b.Set k v).1 ≠ none →
        ((b.Set k v).1 = some errKeyEmpty ∨ (b.Set k v).1 = some errValueNil ∨
          (b.Set k v).1 = some errBatchClosed) ∧
        (b.Set k v).2 = b ∧ Call.step (Call.set k v) (b, s) = (b, s)) ∧
      ((b.Delete k).1 ≠ none →
        ((b.Delete k).1 = some errKeyEmpty ∨ (b.Delete k).1 = some errBatchClosed) ∧
        (b.Delete k).2 = b ∧ Call.step (Call.delete k) (b, s) = (b, s)) := by
  obtain ⟨o, size⟩ := b
  constructor
  · intro herr
    by_cases hk : k.len = 0
    · simp [Call.step, memDBBatch.Set, hk]
    · by_cases hv : v = Bytes.nil
      · simp [Call.step, memDBBatch.Set, hk, hv]
      · cases o with
        | none => simp [Call.step, memDBBatch.Set, hk, hv]
        | some l => simp [memDBBatch.Set, hk, hv] at herr
  · intro herr
    by_cases hk : k.len = 0
    · simp [Call.step, memDBBatch.Delete, hk]
    · cases o with
      | none => simp [Call.step, memDBBatch.Delete, hk]
      | some l => simp [memDBBatch.Delete, hk] at herr

/-- Witness of C17: `Set` with a nil value on an open batch holding one
operation. -/
theorem failed_mutation_changes_nothing_witness :
    (memDBBatch.Set ⟨some [⟨opTypeSet, Bytes.mk [97], Bytes.mk [49]⟩], 2⟩
        (Bytes.mk [98]) Bytes.nil).1 = some errValueNil ∧
    (memDBBatch.Set ⟨some [⟨opTypeSet, Bytes.mk [97], Bytes.mk [49]⟩], 2⟩
        (Bytes.mk [98]) Bytes.nil).2 = ⟨some [⟨opTypeSet, Bytes.mk [97], Bytes.mk [49]⟩], 2⟩ :=
  ⟨by decide, ((failed_mutation_changes_nothing
    ⟨some [⟨opTypeSet, Bytes.mk [97], Bytes.mk [49]⟩], 2⟩ emptyDB
    (Bytes.mk [98]) Bytes.nil).1 (by decide)).2.1⟩

/-- C18: error precedence. `Set` tests the key, then the value, then the closed
marker: a key of length 0 gives `errKeyEmpty` whatever the value and the batch;
a non-empty key with the nil value gives `errValueNil` whatever the batch;
`errBatchClosed` is returned exactly when the key is non-empty, the value is not
nil and the batch is closed. `Delete` gives `errKeyEmpty` for a key of length 0
whatever the batch, and `errBatchClosed` exactly for a non-empty key on a closed
batch. -/
theorem error_precedence (b : memDBBatch) (k v : Bytes) :
    (k.len = 0 → (b.Set k v).1 = some errKeyEmpty) ∧
      (k.len ≠ 0 → v = Bytes.nil → (b.Set k v).1 = some errValueNil) ∧
      ((b.Set k v).1 = some errBatchClosed ↔ k.len ≠ 0 ∧ v ≠ Bytes.nil ∧ b.ops = none) ∧
      (k.len = 0 → (b.Delete k).1 = some errKeyEmpty) ∧
      ((b.Delete k).1 = some errBatchClosed ↔ k.len ≠ 0 ∧ b.ops = none) := by
  obtain ⟨o, size⟩ := b
  refine ⟨?_, ?_, ?_, ?_, ?_⟩
  · intro hk; simp [memDBBatch.Set, hk]
  · intro hk hv; simp [memDBBatch.Set, hk, hv]
  · by_cases hk : k.len = 0
    · simp [memDBBatch.Set, hk]
    · by_cases hv : v = Bytes.nil
      · simp [memDBBatch.Set, hk, hv]
      · cases o <;> simp [memDBBatch.Set, hk, hv]
  · intro hk; simp [memDBBatch.Delete, hk]
  · by_cases hk : k.len = 0
    · simp [memDBBatch.Delete, hk]
    · cases o <;> simp [memDBBatch.Delete, hk]

/-- Witness of C18: on a closed batch, the nil key with the nil value gives
`errKeyEmpty` and key a with the nil value gives `errValueNil`. -/
theorem error_precedence_witness :
    (memDBBatch.Set ⟨none, 0⟩ Bytes.nil Bytes.nil).1 = some errKeyEmpty ∧
    (memDBBatch.Set ⟨none, 0⟩ (Bytes.mk [97]) Bytes.nil).1 = some errValueNil ∧
    (memDBBatch.Set ⟨none, 0⟩ (Bytes.mk [97]) (Bytes.mk [])).1 = some errBatchClosed :=
  ⟨(error_precedence ⟨none, 0⟩ Bytes.nil Bytes.nil).1 (by decide),
    (error_precedence ⟨none, 0⟩ (Bytes.mk [97]) Bytes.nil).2.1 (by decide) rfl,
    (error_precedence ⟨none, 0⟩ (Bytes.mk [97]) (Bytes.mk [])).2.2.1.mpr
      ⟨by decide, by decide, rfl⟩⟩

/-! ## The replay loop on a log with an unknown tag -/

theorem replay_stops_at_unknown (ops : List operation) (i : Nat) (bad : operation) (s : MemDB)
    (hi : ops[i]? = some bad) (hfirst : wellTagged (ops.take i))
    (hbad : bad.opType ≠ opTypeSet ∧ bad.opType ≠ opTypeDelete) :
    replay ops s = (some (Error.unknownOperation bad.opType), (ops.take i).foldl applyOp s) := by
  induction ops generalizing i s with
  | nil => simp at hi
  | cons op rest ih =>
    cases i with
    | zero =>
      simp only [List.getElem?_cons_zero, Option.some.injEq] at hi
      subst hi
      simp [replay, hbad.1, hbad.2]
    | succ j =>
      simp only [List.getElem?_cons_succ] at hi
      have hop : op.opType = opTypeSet ∨ op.opType = opTypeDelete :=
        hfirst op (by simp [List.take_succ_cons])
      have hrest : wellTagged (rest.take j) := by
        intro o ho
        exact hfirst o (by simp [List.take_succ_cons, ho])
      have hds : opTypeDelete ≠ opTypeSet := by decide
      rcases hop with hs | hd
      · simp [replay, applyOp, hs, List.take_succ_cons, ih j _ hi hrest]
      · simp [replay, applyOp, hd, hds, List.take_succ_cons, ih j _ hi hrest]

/-- C19: `Write` on a malformed log. Let `b` be an open batch with log `ops`
whose operation at index `i` is `bad`, tagged neither Set nor Delete, all
operations before index `i` being tagged Set or Delete. Then `Write` returns
the unknown-operation error for that tag, the store is the replay of the first
`i` operations (applied and not rolled back, the later operations not applied),
and the batch is not closed: it is unchanged, log and size accumulator
included. -/
theorem write_on_malformed_log (b : memDBBatch) (ops : List operation) (i : Nat)
    (bad : operation) (s : MemDB)
    (hops : b.ops = some ops) (hi : ops[i]? = some bad)
    (hbad : bad.opType ≠ opTypeSet ∧ bad.opType ≠ opTypeDelete)
    (hfirst : wellTagged (ops.take i)) :
    (b.Write s).1 = some (Error.unknownOperation bad.opType) ∧
      (b.Write s).2.2 = (ops.take i).foldl applyOp s ∧
      (b.Write s).2.1 = b ∧ (b.Write s).2.1.ops = some ops ∧
      (b.Write s).2.1.size = b.size := by
  have hrep := replay_stops_at_unknown ops i bad s hi hfirst hbad
  simp [Write, hops, hrep]

/-- Witness of C19: the log Set(a,1); tag 7 on key b; Delete(a) flushed into the
empty store: the Set is applied, the Delete is not, the batch is kept. -/
theorem write_on_malformed_log_witness :
    (memDBBatch.Write ⟨some [⟨opTypeSet, Bytes.mk [97], Bytes.mk [49]⟩,
        ⟨7, Bytes.mk [98], Bytes.nil⟩, ⟨opTypeDelete, Bytes.mk [97], Bytes.nil⟩], 3⟩ emptyDB).1 =
      some (Error.unknownOperation 7) ∧
    (memDBBatch.Write ⟨some [⟨opTypeSet, Bytes.mk [97], Bytes.mk [49]⟩,
        ⟨7, Bytes.mk [98], Bytes.nil⟩, ⟨opTypeDelete, Bytes.mk [97], Bytes.nil⟩], 3⟩ emptyDB).2.2 =
      emptyDB.set (Bytes.mk [97]) (Bytes.mk [49]) ∧
    (memDBBatch.Write ⟨some [⟨opTypeSet, Bytes.mk [97], Bytes.mk [49]⟩,
        ⟨7, Bytes.mk [98], Bytes.nil⟩, ⟨opTypeDelete, Bytes.mk [97], Bytes.nil⟩], 3⟩ emptyDB).2.1 =
      ⟨some [⟨opTypeSet, Bytes.mk [97], Bytes.mk [49]⟩,
        ⟨7, Bytes.mk [98], Bytes.nil⟩, ⟨opTypeDelete, Bytes.mk [97], Bytes.nil⟩], 3⟩ :=
  have h := write_on_malformed_log
    ⟨some [⟨opTypeSet, Bytes.mk [97], Bytes.mk [49]⟩,
      ⟨7, Bytes.mk [98], Bytes.nil⟩, ⟨opTypeDelete, Bytes.mk [97], Bytes.nil⟩], 3⟩
    _ 1 ⟨7, Bytes.mk [98], Bytes.nil⟩ emptyDB rfl rfl (by decide) (by decide)
  ⟨h.1, h.2.1.trans rfl, h.2.2.1⟩

end db
